import Mathlib

/-
Verification of the banded normal-equations assembly kernel in
geomagnetic_field_inversions/banded_tools/build_banded.pyx.

The three Cython routines build_banded, build_banded_2 and build_banded_3 are
shallowly embedded below.  Real (double) arithmetic is modelled exactly over ℚ;
machine ints are modelled as Int (loop counters that are provably nonnegative
are Nat).  The Cython memoryviews are modelled by `Mat`: a declared shape
together with a total entry function.  The source compiles with
boundscheck=False and wraparound=False, so an access outside the declared
shape is undefined behaviour; in the embedding of build_banded_3 (the one
routine whose index arithmetic can leave the declared bounds) such an access
makes the call return `none`.  The numpy allocation np.zeros((b, n)) fails for
b < 0, which is also modelled by `none`.
-/

/-- A real matrix of declared shape `rows × cols`.  The entry function is
total: values at indices outside the declared shape model whatever the
adjacent memory holds (the source disables bounds checks), and theorems about
well-formed calls never depend on them. -/
structure Mat where
  rows : Nat
  cols : Nat
  entry : Nat → Nat → ℚ

/-- The mutable banded output array, as a total function (zero-initialised). -/
abbrev Grid := Nat → Nat → ℚ

/-- The in-place accumulation `banded[r, c] += v`. -/
def updCell (g : Grid) (r c : Nat) (v : ℚ) : Grid :=
  fun r' c' => if r' = r ∧ c' = c then g r' c' + v else g r' c'

/-- Body of the `jt` loop of `build_banded` (source lines 22-38): decompose the
implied full-matrix indices, skip when the temporal blocks are further apart
than `p`, otherwise accumulate the sum over all observations `kt` into the
single cell `banded[bandw-1-it, it+jt]`.  The `kt` loop adds one product per
iteration to that fixed cell; over ℚ this equals adding the range sum once. -/
def bbBody (base_DIF temporal : Mat) (p : Int) (bandw it jt : Nat)
    (banded : Grid) : Grid :=
  let n_coeffs := base_DIF.rows
  let it_t := (it + jt) / n_coeffs
  let jt_t := jt / n_coeffs
  if p < (((it_t : Int) - (jt_t : Int)).natAbs : Int) then banded
  else
    let it_s := (it + jt) % n_coeffs
    let jt_s := jt % n_coeffs
    updCell banded (bandw - 1 - it) (it + jt)
      (∑ kt ∈ Finset.range base_DIF.cols,
        temporal.entry it_t kt * base_DIF.entry it_s kt *
          temporal.entry jt_t kt * base_DIF.entry jt_s kt)

/-- `build_banded(base_DIF, temporal, p)` (source lines 10-40).  `n_data` is
taken from `base_DIF` alone, exactly as in the source; the `prange` over `it`
writes disjoint band rows, so its sequential fold is the reference
semantics. -/
def build_banded (base_DIF temporal : Mat) (p : Int) : Option Mat :=
  let n_t := temporal.rows
  let n_coeffs := base_DIF.rows
  let bandwI : Int := (p + 1) * (n_coeffs : Int) + 1
  if bandwI < 0 then none
  else
    some { rows := bandwI.toNat, cols := n_t * n_coeffs,
           entry :=
             (List.range bandwI.toNat).foldl (fun banded it =>
                 (List.range (n_t * n_coeffs - it)).foldl
                   (fun banded jt => bbBody base_DIF temporal p bandwI.toNat it jt banded)
                   banded)
               (fun _ _ => 0) }

/-- Body of the `jt` loop of `build_banded_2` (source lines 61-78): identical
to `bbBody` except that the innermost accumulation runs over the precomputed
slice `nonzero_inds[starts[ind] : starts[ind+1]]` of observation indices for
the temporal-block pair `ind = it_t * n_t + jt_t`. -/
def bb2Body (base_DIF temporal : Mat) (p : Int) (nonzero_inds starts : Nat → Nat)
    (bandw it jt : Nat) (banded : Grid) : Grid :=
  let n_t := temporal.rows
  let n_coeffs := base_DIF.rows
  let it_t := (it + jt) / n_coeffs
  let jt_t := jt / n_coeffs
  if p < (((it_t : Int) - (jt_t : Int)).natAbs : Int) then banded
  else
    let it_s := (it + jt) % n_coeffs
    let jt_s := jt % n_coeffs
    let ind := it_t * n_t + jt_t
    updCell banded (bandw - 1 - it) (it + jt)
      (∑ kt ∈ Finset.Ico (starts ind) (starts (ind + 1)),
        temporal.entry it_t (nonzero_inds kt) * base_DIF.entry it_s (nonzero_inds kt) *
          temporal.entry jt_t (nonzero_inds kt) * base_DIF.entry jt_s (nonzero_inds kt))

/-- `build_banded_2(base_DIF, temporal, p, nonzero_inds, starts)` (source
lines 44-80).  The two index arrays hold observation positions, modelled as
functions on Nat. -/
def build_banded_2 (base_DIF temporal : Mat) (p : Int)
    (nonzero_inds starts : Nat → Nat) : Option Mat :=
  let n_t := temporal.rows
  let n_coeffs := base_DIF.rows
  let bandwI : Int := (p + 1) * (n_coeffs : Int) + 1
  if bandwI < 0 then none
  else
    some { rows := bandwI.toNat, cols := n_t * n_coeffs,
           entry :=
             (List.range bandwI.toNat).foldl (fun banded it =>
                 (List.range (n_t * n_coeffs - it)).foldl
                   (fun banded jt =>
                     bb2Body base_DIF temporal p nonzero_inds starts bandwI.toNat it jt banded)
                   banded)
               (fun _ _ => 0) }

/-- Python `range(a, b)` over machine integers, ascending, empty for `b ≤ a`. -/
def intRange (a b : Int) : List Int :=
  (List.range (b - a).toNat).map (fun i : Nat => a + (i : Int))

/-- One accumulation statement of `build_banded_3` (source lines 106-112):
`banded[ind, i + q*n_coeffs] += temporal[p,it]*temporal[q,it]*base_DIF[i,it]*base_DIF[j,it]`
with `ind = n_coeffs*(4 + p - q) + j - i - 1`.  The enclosing loops only guard
`n_t <= p` and `n_t <= q`; the remaining accesses are unchecked in the source
(boundscheck=False, wraparound=False), so a negative `p` or `q` (read of
`temporal`), or an `ind` or column outside the declared output shape, is
undefined behaviour, modelled by `none`. -/
def bb3Cell (base_DIF temporal : Mat) (bandw : Nat) (it : Nat) (p q : Int)
    (i j : Nat) (st : Option Grid) : Option Grid :=
  match st with
  | none => none
  | some banded =>
    let ind : Int := (base_DIF.rows : Int) * (4 + p - q) + (j : Int) - (i : Int) - 1
    if 0 ≤ p ∧ 0 ≤ q ∧ 0 ≤ ind ∧ ind < (bandw : Int) ∧
        i + q.toNat * base_DIF.rows < temporal.rows * base_DIF.rows then
      some (updCell banded ind.toNat (i + q.toNat * base_DIF.rows)
        (temporal.entry p.toNat it * temporal.entry q.toNat it *
          base_DIF.entry i it * base_DIF.entry j it))
    else none

/-- `build_banded_3(nlefts, base_DIF, temporal, deg)` (source lines 84-114):
loop over observations; for each, loop over the temporal window
`p, q ∈ [nlefts[it]-deg, nlefts[it]]` with `q ≥ p`, skipping indices `≥ n_t`
only, and accumulate every spatial pair `(i, j)` at the element-local band
offset.  A negative window index or an out-of-band write is undefined
behaviour (`none`), see `bb3Cell`. -/
def build_banded_3 (nlefts : Nat → Int) (base_DIF temporal : Mat) (deg : Int) :
    Option Mat :=
  let n_t := temporal.rows
  let n_coeffs := base_DIF.rows
  let n_data := base_DIF.cols
  let bandwI : Int := (deg + 1) * (n_coeffs : Int)
  if bandwI < 0 then none
  else
    ((List.range n_data).foldl (fun st it =>
        (intRange (nlefts it - deg) (nlefts it + 1)).foldl (fun st p =>
          if (n_t : Int) ≤ p then st
          else
            (intRange p (nlefts it + 1)).foldl (fun st q =>
              if (n_t : Int) ≤ q then st
              else
                (List.range n_coeffs).foldl (fun st j =>
                  (List.range n_coeffs).foldl (fun st i =>
                    bb3Cell base_DIF temporal bandwI.toNat it p q i j st) st) st) st) st)
      (some (fun _ _ => 0))).map
      (fun g => { rows := bandwI.toNat, cols := n_t * n_coeffs, entry := g })

/-- Re-map from the element-local banded convention of `build_banded_3`
(bandwidth `(deg+1)*n_coeffs`) to the block-offset convention of
`build_banded` (bandwidth `(deg+1)*n_coeffs + 1`): both store the full-matrix
entry `(row, col)`, `col ≥ row`, at band row `bandwidth - 1 - (col - row)`,
so the re-mapping prepends one zero row. -/
def remap3to1 (m : Mat) : Mat :=
  { rows := m.rows + 1, cols := m.cols,
    entry := fun r c => if r = 0 then 0 else m.entry (r - 1) c }

/-- The matrix whose `n` observation columns are the columns `f 0, …, f (n-1)`
of `m` (used to state restriction of the basis matrices to a subset of the
observations). -/
def restrictCols (m : Mat) (n : Nat) (f : Nat → Nat) : Mat :=
  { rows := m.rows, cols := n, entry := fun i j => m.entry i (f j) }

/-- Reconstruction of the implied full symmetric matrix from a banded artifact
`m` (bandwidth `m.rows`): entry `(r, c)` with `c ≥ r` is stored at
`m.entry (m.rows - 1 - (c - r)) c` when `c - r` is within the bandwidth, is 0
beyond it, and the lower triangle mirrors the upper one. -/
def reconstructFull (m : Mat) (r c : Nat) : ℚ :=
  if r ≤ c then
    (if c - r < m.rows then m.entry (m.rows - 1 - (c - r)) c else 0)
  else
    (if r - c < m.rows then m.entry (m.rows - 1 - (r - c)) r else 0)

/-- Entry of an optional result matrix (0 if the call failed). -/
def optEntry (o : Option Mat) (r c : Nat) : ℚ :=
  match o with
  | none => 0
  | some m => m.entry r c

lemma updCell_apply (g : Grid) (r c : Nat) (v : ℚ) (r' c' : Nat) :
    updCell g r c v r' c' = g r' c' + if r' = r ∧ c' = c then v else 0 := by
  unfold updCell
  split <;> simp

/-- A fold whose every step adds a (step-dependent) increment grid pointwise
adds, at each cell, the sum of the increments. -/
lemma foldl_addStep {α : Type} (L : List α) (step : Grid → α → Grid) (δ : α → Grid)
    (hstep : ∀ g x, x ∈ L → ∀ r c, step g x r c = g r c + δ x r c)
    (g0 : Grid) (r c : Nat) :
    L.foldl step g0 r c = g0 r c + (L.map (fun x => δ x r c)).sum := by
  induction L generalizing g0 with
  | nil => simp
  | cons x L ih =>
      rw [List.foldl_cons,
        ih (fun g y hy => hstep g y (List.mem_cons_of_mem x hy)) (step g0 x),
        hstep g0 x (List.mem_cons_self x L), List.map_cons, List.sum_cons, add_assoc]

lemma listMapSum_range (n : Nat) (f : Nat → ℚ) :
    ((List.range n).map f).sum = ∑ i ∈ Finset.range n, f i := by
  induction n with
  | zero => simp
  | succ n ih =>
      rw [List.range_succ, List.map_append, List.sum_append, Finset.sum_range_succ, ih]
      simp

/-- Entry of the double banded-assembly fold: band offset `it` writes only the
band row `bandw - 1 - it`, and within it column `jt` writes only column
`it + jt`, so the cell `(r, c)` of the result holds exactly the increment of
offset `bandw - 1 - r` at column `c` (0 outside the written region). -/
lemma band_fold_entry (N bandw : Nat) (w : Nat → Nat → ℚ) (r c : Nat) :
    ((List.range bandw).foldl (fun g it =>
        (List.range (N - it)).foldl
          (fun g jt => updCell g (bandw - 1 - it) (it + jt) (w it jt)) g)
      (fun _ _ => 0) : Grid) r c
    = if r < bandw ∧ bandw - 1 - r ≤ c ∧ c < N
      then w (bandw - 1 - r) (c - (bandw - 1 - r)) else 0 := by
  have hinner : ∀ (it : Nat) (g : Grid) (r c : Nat),
      ((List.range (N - it)).foldl
        (fun g jt => updCell g (bandw - 1 - it) (it + jt) (w it jt)) g) r c
      = g r c + ∑ jt ∈ Finset.range (N - it),
          (if r = bandw - 1 - it ∧ c = it + jt then w it jt else 0) := by
    intro it g r c
    rw [foldl_addStep (List.range (N - it))
        (fun g jt => updCell g (bandw - 1 - it) (it + jt) (w it jt))
        (fun jt r' c' => if r' = bandw - 1 - it ∧ c' = it + jt then w it jt else 0)
        (fun g x _ r' c' => updCell_apply g (bandw - 1 - it) (it + x) (w it x) r' c')
        g r c, listMapSum_range]
  rw [foldl_addStep (List.range bandw)
      (fun g it => (List.range (N - it)).foldl
        (fun g jt => updCell g (bandw - 1 - it) (it + jt) (w it jt)) g)
      (fun it r' c' => ∑ jt ∈ Finset.range (N - it),
        (if r' = bandw - 1 - it ∧ c' = it + jt then w it jt else 0))
      (fun g it _ r' c' => hinner it g r' c')
      (fun _ _ => 0) r c, listMapSum_range]
  by_cases hr : r < bandw
  · have hmem : bandw - 1 - r ∈ Finset.range bandw := Finset.mem_range.mpr (by omega)
    rw [Finset.sum_eq_single_of_mem (bandw - 1 - r) hmem ?houter]
    case houter =>
      intro it hit hne
      simp only [Finset.mem_range] at hit
      exact Finset.sum_eq_zero fun jt _ => if_neg (by rintro ⟨h1, _⟩; omega)
    by_cases hc : bandw - 1 - r ≤ c ∧ c < N
    · rw [if_pos ⟨hr, hc.1, hc.2⟩]
      have hjmem : c - (bandw - 1 - r) ∈ Finset.range (N - (bandw - 1 - r)) :=
        Finset.mem_range.mpr (by omega)
      rw [Finset.sum_eq_single_of_mem (c - (bandw - 1 - r)) hjmem ?hinner2]
      case hinner2 =>
        intro jt hjt hne
        simp only [Finset.mem_range] at hjt
        exact if_neg (by rintro ⟨_, h2⟩; omega)
      rw [if_pos ⟨by omega, by omega⟩, zero_add]
    · rw [if_neg (by rintro ⟨_, h2, h3⟩; exact hc ⟨h2, h3⟩)]
      rw [Finset.sum_eq_zero fun jt hjt => ?_, add_zero]
      simp only [Finset.mem_range] at hjt
      exact if_neg (by rintro ⟨h1, h2⟩; omega)
  · rw [if_neg (by rintro ⟨h1, _⟩; omega), zero_add]
    exact Finset.sum_eq_zero fun it hit =>
      Finset.sum_eq_zero fun jt _ => if_neg (by
        rintro ⟨h1, _⟩
        simp only [Finset.mem_range] at hit
        omega)

/-- The value `build_banded` stores for band offset `it` at column `it + jt`
(0 when the temporal-block distance exceeds `p`). -/
def bbW (base_DIF temporal : Mat) (p : Int) (it jt : Nat) : ℚ :=
  if p < (((((it + jt) / base_DIF.rows : Nat)) : Int) - ((jt / base_DIF.rows : Nat) : Int)).natAbs
  then 0
  else
    ∑ kt ∈ Finset.range base_DIF.cols,
      temporal.entry ((it + jt) / base_DIF.rows) kt *
        base_DIF.entry ((it + jt) % base_DIF.rows) kt *
        temporal.entry (jt / base_DIF.rows) kt * base_DIF.entry (jt % base_DIF.rows) kt

/-- The value `build_banded_2` stores for band offset `it` at column `it + jt`. -/
def bb2W (base_DIF temporal : Mat) (p : Int) (nonzero_inds starts : Nat → Nat)
    (it jt : Nat) : ℚ :=
  if p < (((((it + jt) / base_DIF.rows : Nat)) : Int) - ((jt / base_DIF.rows : Nat) : Int)).natAbs
  then 0
  else
    ∑ kt ∈ Finset.Ico (starts ((it + jt) / base_DIF.rows * temporal.rows + jt / base_DIF.rows))
        (starts ((it + jt) / base_DIF.rows * temporal.rows + jt / base_DIF.rows + 1)),
      temporal.entry ((it + jt) / base_DIF.rows) (nonzero_inds kt) *
        base_DIF.entry ((it + jt) % base_DIF.rows) (nonzero_inds kt) *
        temporal.entry (jt / base_DIF.rows) (nonzero_inds kt) *
        base_DIF.entry (jt % base_DIF.rows) (nonzero_inds kt)

lemma bbBody_eq (base_DIF temporal : Mat) (p : Int) (bandw it jt : Nat) (g : Grid) :
    bbBody base_DIF temporal p bandw it jt g
      = updCell g (bandw - 1 - it) (it + jt) (bbW base_DIF temporal p it jt) := by
  unfold bbBody bbW
  by_cases h : p < (((((it + jt) / base_DIF.rows : Nat)) : Int)
      - ((jt / base_DIF.rows : Nat) : Int)).natAbs
  · rw [if_pos h, if_pos h]
    funext r c
    rw [updCell_apply]
    split <;> simp
  · rw [if_neg h, if_neg h]

lemma bb2Body_eq (base_DIF temporal : Mat) (p : Int) (nonzero_inds starts : Nat → Nat)
    (bandw it jt : Nat) (g : Grid) :
    bb2Body base_DIF temporal p nonzero_inds starts bandw it jt g
      = updCell g (bandw - 1 - it) (it + jt)
          (bb2W base_DIF temporal p nonzero_inds starts it jt) := by
  unfold bb2Body bb2W
  by_cases h : p < (((((it + jt) / base_DIF.rows : Nat)) : Int)
      - ((jt / base_DIF.rows : Nat) : Int)).natAbs
  · rw [if_pos h, if_pos h]
    funext r c
    rw [updCell_apply]
    split <;> simp
  · rw [if_neg h, if_neg h]

/-- Closed form of `build_banded` for a nonnegative band parameter. -/
lemma build_banded_eq (base_DIF temporal : Mat) (p : Int) (hp : 0 ≤ p) :
    build_banded base_DIF temporal p
      = some { rows := ((p + 1) * (base_DIF.rows : Int) + 1).toNat,
               cols := temporal.rows * base_DIF.rows,
               entry := fun r c =>
                 if r < ((p + 1) * (base_DIF.rows : Int) + 1).toNat ∧
                     ((p + 1) * (base_DIF.rows : Int) + 1).toNat - 1 - r ≤ c ∧
                     c < temporal.rows * base_DIF.rows
                 then bbW base_DIF temporal p
                   (((p + 1) * (base_DIF.rows : Int) + 1).toNat - 1 - r)
                   (c - (((p + 1) * (base_DIF.rows : Int) + 1).toNat - 1 - r))
                 else 0 } := by
  have hb : ¬ ((p + 1) * (base_DIF.rows : Int) + 1 < 0) := by
    have : (0 : Int) ≤ (p + 1) * (base_DIF.rows : Int) :=
      mul_nonneg (by omega) (Int.ofNat_nonneg _)
    omega
  unfold build_banded
  rw [if_neg hb]
  congr 1
  have hbody : ∀ it : Nat,
      (fun (banded : Grid) jt =>
        bbBody base_DIF temporal p ((p + 1) * (base_DIF.rows : Int) + 1).toNat it jt banded)
      = (fun (banded : Grid) jt =>
          updCell banded (((p + 1) * (base_DIF.rows : Int) + 1).toNat - 1 - it) (it + jt)
            (bbW base_DIF temporal p it jt)) := by
    intro it
    funext g jt
    exact bbBody_eq base_DIF temporal p _ it jt g
  congr 1
  funext r c
  rw [show (fun (banded : Grid) (it : Nat) =>
        (List.range (temporal.rows * base_DIF.rows - it)).foldl
          (fun banded jt =>
            bbBody base_DIF temporal p ((p + 1) * (base_DIF.rows : Int) + 1).toNat it jt banded)
          banded)
      = (fun (banded : Grid) (it : Nat) =>
        (List.range (temporal.rows * base_DIF.rows - it)).foldl
          (fun banded jt =>
            updCell banded (((p + 1) * (base_DIF.rows : Int) + 1).toNat - 1 - it) (it + jt)
              (bbW base_DIF temporal p it jt))
          banded)
    from funext fun g => funext fun it => by rw [hbody it]]
  exact band_fold_entry (temporal.rows * base_DIF.rows)
    ((p + 1) * (base_DIF.rows : Int) + 1).toNat (bbW base_DIF temporal p) r c

/-- Closed form of `build_banded_2` for a nonnegative band parameter. -/
lemma build_banded_2_eq (base_DIF temporal : Mat) (p : Int)
    (nonzero_inds starts : Nat → Nat) (hp : 0 ≤ p) :
    build_banded_2 base_DIF temporal p nonzero_inds starts
      = some { rows := ((p + 1) * (base_DIF.rows : Int) + 1).toNat,
               cols := temporal.rows * base_DIF.rows,
               entry := fun r c =>
                 if r < ((p + 1) * (base_DIF.rows : Int) + 1).toNat ∧
                     ((p + 1) * (base_DIF.rows : Int) + 1).toNat - 1 - r ≤ c ∧
                     c < temporal.rows * base_DIF.rows
                 then bb2W base_DIF temporal p nonzero_inds starts
                   (((p + 1) * (base_DIF.rows : Int) + 1).toNat - 1 - r)
                   (c - (((p + 1) * (base_DIF.rows : Int) + 1).toNat - 1 - r))
                 else 0 } := by
  have hb : ¬ ((p + 1) * (base_DIF.rows : Int) + 1 < 0) := by
    have : (0 : Int) ≤ (p + 1) * (base_DIF.rows : Int) :=
      mul_nonneg (by omega) (Int.ofNat_nonneg _)
    omega
  unfold build_banded_2
  rw [if_neg hb]
  congr 1
  have hbody : ∀ it : Nat,
      (fun (banded : Grid) jt =>
        bb2Body base_DIF temporal p nonzero_inds starts
          ((p + 1) * (base_DIF.rows : Int) + 1).toNat it jt banded)
      = (fun (banded : Grid) jt =>
          updCell banded (((p + 1) * (base_DIF.rows : Int) + 1).toNat - 1 - it) (it + jt)
            (bb2W base_DIF temporal p nonzero_inds starts it jt)) := by
    intro it
    funext g jt
    exact bb2Body_eq base_DIF temporal p nonzero_inds starts _ it jt g
  congr 1
  funext r c
  rw [show (fun (banded : Grid) (it : Nat) =>
        (List.range (temporal.rows * base_DIF.rows - it)).foldl
          (fun banded jt =>
            bb2Body base_DIF temporal p nonzero_inds starts
              ((p + 1) * (base_DIF.rows : Int) + 1).toNat it jt banded)
          banded)
      = (fun (banded : Grid) (it : Nat) =>
        (List.range (temporal.rows * base_DIF.rows - it)).foldl
          (fun banded jt =>
            updCell banded (((p + 1) * (base_DIF.rows : Int) + 1).toNat - 1 - it) (it + jt)
              (bb2W base_DIF temporal p nonzero_inds starts it jt))
          banded)
    from funext fun g => funext fun it => by rw [hbody it]]
  exact band_fold_entry (temporal.rows * base_DIF.rows)
    ((p + 1) * (base_DIF.rows : Int) + 1).toNat
    (bb2W base_DIF temporal p nonzero_inds starts) r c

/-- Entry of `build_banded` in full-matrix coordinates: the cell storing the
full-matrix entry `(row, col)`, `row ≤ col`, holds the offset value
`bbW (col - row) row`. -/
lemma build_banded_entry_rc (base_DIF temporal : Mat) (p : Int) (hp : 0 ≤ p)
    (row col : Nat) (hrc : row ≤ col) (hcol : col < temporal.rows * base_DIF.rows)
    (hband : col - row < ((p + 1) * (base_DIF.rows : Int) + 1).toNat) :
    ∃ m, build_banded base_DIF temporal p = some m ∧
      m.entry (((p + 1) * (base_DIF.rows : Int) + 1).toNat - 1 - (col - row)) col
        = bbW base_DIF temporal p (col - row) row := by
  refine ⟨_, build_banded_eq base_DIF temporal p hp, ?_⟩
  have hB1 : 1 ≤ ((p + 1) * (base_DIF.rows : Int) + 1).toNat := by
    have : (0 : Int) ≤ (p + 1) * (base_DIF.rows : Int) :=
      mul_nonneg (by omega) (Int.ofNat_nonneg _)
    omega
  show (if _ then _ else _) = _
  rw [if_pos ⟨by omega, by omega, hcol⟩,
    show ((p + 1) * (base_DIF.rows : Int) + 1).toNat - 1 -
        (((p + 1) * (base_DIF.rows : Int) + 1).toNat - 1 - (col - row)) = col - row from by omega,
    show col - (col - row) = row from by omega]

/-- Entry of `build_banded_2` in full-matrix coordinates. -/
lemma build_banded_2_entry_rc (base_DIF temporal : Mat) (p : Int)
    (nonzero_inds starts : Nat → Nat) (hp : 0 ≤ p)
    (row col : Nat) (hrc : row ≤ col) (hcol : col < temporal.rows * base_DIF.rows)
    (hband : col - row < ((p + 1) * (base_DIF.rows : Int) + 1).toNat) :
    ∃ m, build_banded_2 base_DIF temporal p nonzero_inds starts = some m ∧
      m.entry (((p + 1) * (base_DIF.rows : Int) + 1).toNat - 1 - (col - row)) col
        = bb2W base_DIF temporal p nonzero_inds starts (col - row) row := by
  refine ⟨_, build_banded_2_eq base_DIF temporal p nonzero_inds starts hp, ?_⟩
  have hB1 : 1 ≤ ((p + 1) * (base_DIF.rows : Int) + 1).toNat := by
    have : (0 : Int) ≤ (p + 1) * (base_DIF.rows : Int) :=
      mul_nonneg (by omega) (Int.ofNat_nonneg _)
    omega
  show (if _ then _ else _) = _
  rw [if_pos ⟨by omega, by omega, hcol⟩,
    show ((p + 1) * (base_DIF.rows : Int) + 1).toNat - 1 -
        (((p + 1) * (base_DIF.rows : Int) + 1).toNat - 1 - (col - row)) = col - row from by omega,
    show col - (col - row) = row from by omega]

/-- All-ones 1×1 matrix, used as a concrete witness input. -/
def mat1x1 : Mat := { rows := 1, cols := 1, entry := fun _ _ => 1 }

/-- All-ones 3×1 matrix (three temporal basis functions, one observation). -/
def mat3x1 : Mat := { rows := 3, cols := 1, entry := fun _ _ => 1 }

/-- All-ones 2×1 matrix (two temporal basis functions, one observation). -/
def mat2x1 : Mat := { rows := 2, cols := 1, entry := fun _ _ => 1 }

/-- All-ones 1×2 matrix (one basis function, two observations). -/
def mat1x2 : Mat := { rows := 1, cols := 2, entry := fun _ _ => 1 }

/-- Declared shape 1×1, but the total entry function is 2 at the out-of-shape
column 1: it models the memory that `build_banded` reads past the end of a
too-short temporal matrix. -/
def matPhantom : Mat := { rows := 1, cols := 1, entry := fun _ j => if j = 0 then 1 else 2 }

/-- Claim C1: for basis matrices with equal `n_data`, band parameter `p ≥ 0`,
and every full-matrix entry `(row, col)` with `col ≥ row`,
`col - row < bandwidth` and temporal-block distance at most `p`, the value
stored at `banded[bandwidth-1-(col-row), col]` is the sum over all
observations `kt` of
`temporal[col/n_coeffs, kt] * base_DIF[col mod n_coeffs, kt] *
temporal[row/n_coeffs, kt] * base_DIF[row mod n_coeffs, kt]`. -/
theorem claim_C1 (base_DIF temporal : Mat) (p : Int) (hp : 0 ≤ p) (row col : Nat)
    (hrc : row ≤ col) (hcol : col < temporal.rows * base_DIF.rows)
    (hband : col - row < ((p + 1) * (base_DIF.rows : Int) + 1).toNat)
    (hdist : ((((col / base_DIF.rows : Nat) : Int)
        - ((row / base_DIF.rows : Nat) : Int)).natAbs : Int) ≤ p) :
    ∃ m, build_banded base_DIF temporal p = some m ∧
      m.entry (((p + 1) * (base_DIF.rows : Int) + 1).toNat - 1 - (col - row)) col
        = ∑ kt ∈ Finset.range base_DIF.cols,
            temporal.entry (col / base_DIF.rows) kt * base_DIF.entry (col % base_DIF.rows) kt *
              temporal.entry (row / base_DIF.rows) kt * base_DIF.entry (row % base_DIF.rows) kt := by
  obtain ⟨m, hm, he⟩ := build_banded_entry_rc base_DIF temporal p hp row col hrc hcol hband
  refine ⟨m, hm, ?_⟩
  rw [he]
  unfold bbW
  rw [show col - row + row = col from by omega]
  exact if_neg (not_lt.mpr hdist)

theorem claim_C1_witness :
    (0 : Int) ≤ 0 ∧ (0 : Nat) ≤ 0 ∧ (0 : Nat) < mat1x1.rows * mat1x1.rows ∧
      (0 : Nat) - 0 < (((0 : Int) + 1) * (mat1x1.rows : Int) + 1).toNat ∧
      ((((0 / mat1x1.rows : Nat) : Int) - ((0 / mat1x1.rows : Nat) : Int)).natAbs : Int) ≤ 0 ∧
      (∃ m, build_banded mat1x1 mat1x1 0 = some m ∧
        m.entry ((((0 : Int) + 1) * (mat1x1.rows : Int) + 1).toNat - 1 - (0 - 0)) 0
          = ∑ kt ∈ Finset.range mat1x1.cols,
              mat1x1.entry (0 / mat1x1.rows) kt * mat1x1.entry (0 % mat1x1.rows) kt *
                mat1x1.entry (0 / mat1x1.rows) kt * mat1x1.entry (0 % mat1x1.rows) kt) :=
  ⟨by decide, by decide, by decide, by decide, by decide,
    claim_C1 mat1x1 mat1x1 0 (by decide) 0 0 (by decide) (by decide) (by decide) (by decide)⟩

/-- Claim C7: in both `build_banded` and `build_banded_2` (the latter with an
arbitrary nonzero-index grouping), every stored band entry whose full-matrix
pair `(row, col)` has temporal-block distance greater than `p` is exactly 0. -/
theorem claim_C7 (base_DIF temporal : Mat) (p : Int) (nonzero_inds starts : Nat → Nat)
    (hp : 0 ≤ p) (row col : Nat)
    (hrc : row ≤ col) (hcol : col < temporal.rows * base_DIF.rows)
    (hband : col - row < ((p + 1) * (base_DIF.rows : Int) + 1).toNat)
    (hdist : p < ((((col / base_DIF.rows : Nat) : Int)
        - ((row / base_DIF.rows : Nat) : Int)).natAbs : Int)) :
    (∃ m, build_banded base_DIF temporal p = some m ∧
      m.entry (((p + 1) * (base_DIF.rows : Int) + 1).toNat - 1 - (col - row)) col = 0) ∧
    (∃ m2, build_banded_2 base_DIF temporal p nonzero_inds starts = some m2 ∧
      m2.entry (((p + 1) * (base_DIF.rows : Int) + 1).toNat - 1 - (col - row)) col = 0) := by
  constructor
  · obtain ⟨m, hm, he⟩ := build_banded_entry_rc base_DIF temporal p hp row col hrc hcol hband
    refine ⟨m, hm, ?_⟩
    rw [he]
    unfold bbW
    rw [show col - row + row = col from by omega]
    exact if_pos hdist
  · obtain ⟨m2, hm2, he2⟩ := build_banded_2_entry_rc base_DIF temporal p nonzero_inds starts
      hp row col hrc hcol hband
    refine ⟨m2, hm2, ?_⟩
    rw [he2]
    unfold bb2W
    rw [show col - row + row = col from by omega]
    exact if_pos hdist

theorem claim_C7_witness :
    (0 : Int) ≤ 0 ∧ (0 : Nat) ≤ 1 ∧ (1 : Nat) < mat2x1.rows * mat1x1.rows ∧
      (1 : Nat) - 0 < (((0 : Int) + 1) * (mat1x1.rows : Int) + 1).toNat ∧
      (0 : Int) < ((((1 / mat1x1.rows : Nat) : Int)
        - ((0 / mat1x1.rows : Nat) : Int)).natAbs : Int) ∧
      ((∃ m, build_banded mat1x1 mat2x1 0 = some m ∧
        m.entry ((((0 : Int) + 1) * (mat1x1.rows : Int) + 1).toNat - 1 - (1 - 0)) 1 = 0) ∧
      (∃ m2, build_banded_2 mat1x1 mat2x1 0 (fun k => k) (fun k => k) = some m2 ∧
        m2.entry ((((0 : Int) + 1) * (mat1x1.rows : Int) + 1).toNat - 1 - (1 - 0)) 1 = 0)) :=
  ⟨by decide, by decide, by decide, by decide, by decide,
    claim_C7 mat1x1 mat2x1 0 (fun k => k) (fun k => k) (by decide) 0 1
      (by decide) (by decide) (by decide) (by decide)⟩

/-- Claim C10: every entry of the last band row (index `bandwidth - 1`, the
full-matrix main diagonal) equals the sum over observations of the square of
`temporal[c / n_coeffs, kt] * base_DIF[c mod n_coeffs, kt]`, hence is
nonnegative. -/
theorem claim_C10 (base_DIF temporal : Mat) (p : Int) (hp : 0 ≤ p) (c : Nat)
    (hc : c < temporal.rows * base_DIF.rows) :
    ∃ m, build_banded base_DIF temporal p = some m ∧
      m.entry (((p + 1) * (base_DIF.rows : Int) + 1).toNat - 1) c
        = (∑ kt ∈ Finset.range base_DIF.cols,
            (temporal.entry (c / base_DIF.rows) kt * base_DIF.entry (c % base_DIF.rows) kt) ^ 2) ∧
      0 ≤ m.entry (((p + 1) * (base_DIF.rows : Int) + 1).toNat - 1) c := by
  have hB1 : 1 ≤ ((p + 1) * (base_DIF.rows : Int) + 1).toNat := by
    have : (0 : Int) ≤ (p + 1) * (base_DIF.rows : Int) :=
      mul_nonneg (by omega) (Int.ofNat_nonneg _)
    omega
  obtain ⟨m, hm, he⟩ := build_banded_entry_rc base_DIF temporal p hp c c le_rfl hc
    (by omega)
  rw [show c - c = 0 from by omega] at he
  rw [show (((p + 1) * (base_DIF.rows : Int) + 1).toNat - 1 - 0)
      = ((p + 1) * (base_DIF.rows : Int) + 1).toNat - 1 from by omega] at he
  refine ⟨m, hm, ?_, ?_⟩
  · rw [he]
    unfold bbW
    rw [show (0 : Nat) + c = c from by omega, if_neg (by simp; omega)]
    exact Finset.sum_congr rfl fun kt _ => by ring
  · rw [he]
    unfold bbW
    rw [show (0 : Nat) + c = c from by omega, if_neg (by simp; omega),
      Finset.sum_congr rfl fun (kt : Nat) _ =>
        show temporal.entry (c / base_DIF.rows) kt * base_DIF.entry (c % base_DIF.rows) kt *
            temporal.entry (c / base_DIF.rows) kt * base_DIF.entry (c % base_DIF.rows) kt
          = (temporal.entry (c / base_DIF.rows) kt * base_DIF.entry (c % base_DIF.rows) kt) ^ 2
        from by ring]
    exact Finset.sum_nonneg fun kt _ => sq_nonneg _

theorem claim_C10_witness :
    (0 : Int) ≤ 0 ∧ (0 : Nat) < mat1x1.rows * mat1x1.rows ∧
      (∃ m, build_banded mat1x1 mat1x1 0 = some m ∧
        m.entry ((((0 : Int) + 1) * (mat1x1.rows : Int) + 1).toNat - 1) 0
          = (∑ kt ∈ Finset.range mat1x1.cols,
              (mat1x1.entry (0 / mat1x1.rows) kt * mat1x1.entry (0 % mat1x1.rows) kt) ^ 2) ∧
        0 ≤ m.entry ((((0 : Int) + 1) * (mat1x1.rows : Int) + 1).toNat - 1) 0) :=
  ⟨by decide, by decide, claim_C10 mat1x1 mat1x1 0 (by decide) 0 (by decide)⟩

/-- Claim C4 counterexample: with `n_data` mismatched (spatial basis has 2
observation columns, temporal has 1), `build_banded` does not fail: it returns
a matrix, and the returned diagonal value 5 = 1*1*1*1 + 2*1*2*1 depends on the
value 2 that lies beyond the temporal matrix's declared last column. -/
theorem claim_C4_counterexample :
    ∃ m, build_banded mat1x2 matPhantom 0 = some m ∧ m.entry 1 0 = 5 := by
  refine ⟨_, build_banded_eq mat1x2 matPhantom 0 (by norm_num), ?_⟩
  norm_num [bbW, mat1x2, matPhantom, Finset.sum_range_succ]

/-- Claim C4, amended: neither `build_banded` nor `build_banded_2` performs
any shape check; with `n_data` differing between the two basis matrices both
still return a matrix (they read the temporal matrix at every column index
below `base_DIF.cols`, whether or not it is within the temporal matrix's
declared shape), rather than failing with a shape-mismatch error. -/
theorem claim_C4 (base_DIF temporal : Mat) (p : Int) (hp : 0 ≤ p)
    (_hmis : base_DIF.cols ≠ temporal.cols) :
    (build_banded base_DIF temporal p).isSome = true ∧
      ∀ nonzero_inds starts : Nat → Nat,
        (build_banded_2 base_DIF temporal p nonzero_inds starts).isSome = true := by
  constructor
  · rw [build_banded_eq base_DIF temporal p hp]
    rfl
  · intro nonzero_inds starts
    rw [build_banded_2_eq base_DIF temporal p nonzero_inds starts hp]
    rfl

theorem claim_C4_witness :
    (0 : Int) ≤ 0 ∧ mat1x2.cols ≠ matPhantom.cols ∧
      ((build_banded mat1x2 matPhantom 0).isSome = true ∧
        ∀ nonzero_inds starts : Nat → Nat,
          (build_banded_2 mat1x2 matPhantom 0 nonzero_inds starts).isSome = true) :=
  ⟨by decide, by decide, claim_C4 mat1x2 matPhantom 0 (by decide) (by decide)⟩

lemma foldl_self {α β : Type} (L : List α) (step : β → α → β)
    (h : ∀ g x, x ∈ L → step g x = g) (g : β) : L.foldl step g = g := by
  induction L generalizing g with
  | nil => rfl
  | cons x L ih =>
      rw [List.foldl_cons, h g x (List.mem_cons_self x L)]
      exact ih (fun g y hy => h g y (List.mem_cons_of_mem x hy)) g

lemma bbBody_negOne (base_DIF temporal : Mat) (bandw it jt : Nat) (g : Grid) :
    bbBody base_DIF temporal (-1) bandw it jt g = g := by
  unfold bbBody
  rw [if_pos (lt_of_lt_of_le (by norm_num) (Int.ofNat_nonneg _))]

lemma bb2Body_negOne (base_DIF temporal : Mat) (nonzero_inds starts : Nat → Nat)
    (bandw it jt : Nat) (g : Grid) :
    bb2Body base_DIF temporal (-1) nonzero_inds starts bandw it jt g = g := by
  unfold bb2Body
  rw [if_pos (lt_of_lt_of_le (by norm_num) (Int.ofNat_nonneg _))]

lemma intRange_self (a : Int) : intRange a a = [] := by
  simp [intRange]

/-- Claim C5 counterexample: with the negative band parameter `p = deg = -1`
all three assembly routines return a matrix instead of failing. -/
theorem claim_C5_counterexample :
    (build_banded mat1x1 mat1x1 (-1)).isSome = true ∧
      (build_banded_2 mat1x1 mat1x1 (-1) (fun k => k) (fun k => k)).isSome = true ∧
      (build_banded_3 (fun _ => 0) mat1x1 mat1x1 (-1)).isSome = true := by
  refine ⟨rfl, rfl, ?_⟩
  rw [show build_banded_3 (fun _ => 0) mat1x1 mat1x1 (-1)
      = some { rows := 0, cols := 1, entry := fun _ _ => 0 } from rfl]
  rfl

/-- Claim C5, amended: a negative band parameter is not reported.  For
`p = -1` the computed bandwidth is `0*n_coeffs + 1 = 1` and `build_banded` /
`build_banded_2` return an all-zero one-row matrix (the block-distance test
`p < |it_t - jt_t|` always skips); for `deg = -1` the computed bandwidth of
`build_banded_3` is 0 and it returns an empty zero-row matrix (the window
`range(nlefts[it]+1, nlefts[it]+1)` is empty).  Only a negative computed
bandwidth (p ≤ -2 with n_coeffs ≥ 1) makes the allocation fail. -/
theorem claim_C5 (base_DIF temporal : Mat) (nlefts : Nat → Int)
    (nonzero_inds starts : Nat → Nat) :
    build_banded base_DIF temporal (-1)
        = some { rows := 1, cols := temporal.rows * base_DIF.rows, entry := fun _ _ => 0 } ∧
      build_banded_2 base_DIF temporal (-1) nonzero_inds starts
        = some { rows := 1, cols := temporal.rows * base_DIF.rows, entry := fun _ _ => 0 } ∧
      build_banded_3 nlefts base_DIF temporal (-1)
        = some { rows := 0, cols := temporal.rows * base_DIF.rows, entry := fun _ _ => 0 } := by
  have h1 : ((-1 : Int) + 1) * (base_DIF.rows : Int) + 1 = 1 := by ring
  have h0 : ((-1 : Int) + 1) * (base_DIF.rows : Int) = 0 := by ring
  refine ⟨?_, ?_, ?_⟩
  · unfold build_banded
    rw [if_neg (by omega), h1]
    congr 2
    exact foldl_self _ _ (fun g it _ =>
      foldl_self _ _ (fun g' jt _ => bbBody_negOne base_DIF temporal _ it jt g') g) _
  · unfold build_banded_2
    rw [if_neg (by omega), h1]
    congr 2
    exact foldl_self _ _ (fun g it _ =>
      foldl_self _ _ (fun g' jt _ =>
        bb2Body_negOne base_DIF temporal nonzero_inds starts _ it jt g') g) _
  · unfold build_banded_3
    rw [if_neg (by omega), h0]
    have hstep : ∀ (st : Option Grid) (it : Nat), it ∈ List.range base_DIF.cols →
        (intRange (nlefts it - (-1)) (nlefts it + 1)).foldl (fun st p =>
          if (temporal.rows : Int) ≤ p then st
          else
            (intRange p (nlefts it + 1)).foldl (fun st q =>
              if (temporal.rows : Int) ≤ q then st
              else
                (List.range base_DIF.rows).foldl (fun st j =>
                  (List.range base_DIF.rows).foldl (fun st i =>
                    bb3Cell base_DIF temporal (0 : Int).toNat it p q i j st) st) st) st) st
          = st := by
      intro st it _
      rw [show nlefts it - (-1) = nlefts it + 1 from by omega, intRange_self]
      rfl
    rw [foldl_self _ _ hstep (some fun _ _ => 0)]
    rfl

/-- Splitting a sum over all observations along a partition of the observation
indices into the images of two disjoint enumerations. -/
lemma sum_split_partition (n nA nB : Nat) (a b : Nat → Nat) (f : Nat → ℚ)
    (ha : ∀ j, j < nA → a j < n) (hb : ∀ j, j < nB → b j < n)
    (hainj : ∀ j1, j1 < nA → ∀ j2, j2 < nA → a j1 = a j2 → j1 = j2)
    (hbinj : ∀ j1, j1 < nB → ∀ j2, j2 < nB → b j1 = b j2 → j1 = j2)
    (hdisj : ∀ j1, j1 < nA → ∀ j2, j2 < nB → a j1 ≠ b j2)
    (hcover : ∀ k, k < n → (∃ j, j < nA ∧ a j = k) ∨ (∃ j, j < nB ∧ b j = k)) :
    ∑ k ∈ Finset.range n, f k
      = (∑ j ∈ Finset.range nA, f (a j)) + ∑ j ∈ Finset.range nB, f (b j) := by
  have himg : Finset.range n = (Finset.range nA).image a ∪ (Finset.range nB).image b := by
    ext k
    simp only [Finset.mem_union, Finset.mem_image, Finset.mem_range]
    constructor
    · intro hk
      rcases hcover k hk with ⟨j, hj, hjk⟩ | ⟨j, hj, hjk⟩
      · exact Or.inl ⟨j, hj, hjk⟩
      · exact Or.inr ⟨j, hj, hjk⟩
    · rintro (⟨j, hj, rfl⟩ | ⟨j, hj, rfl⟩)
      · exact ha j hj
      · exact hb j hj
  have hdisj' : Disjoint ((Finset.range nA).image a) ((Finset.range nB).image b) := by
    rw [Finset.disjoint_left]
    rintro k hka hkb
    simp only [Finset.mem_image, Finset.mem_range] at hka hkb
    obtain ⟨j1, hj1, hj1k⟩ := hka
    obtain ⟨j2, hj2, hj2k⟩ := hkb
    exact hdisj j1 hj1 j2 hj2 (hj1k.trans hj2k.symm)
  rw [himg, Finset.sum_union hdisj',
    Finset.sum_image (fun x hx y hy h =>
      hainj x (Finset.mem_range.mp hx) y (Finset.mem_range.mp hy) h),
    Finset.sum_image (fun x hx y hy h =>
      hbinj x (Finset.mem_range.mp hx) y (Finset.mem_range.mp hy) h)]

/-- Claim C8: additivity over observations.  If the observation columns of the
basis matrices are partitioned into two disjoint enumerated sets `A` (listed
by `a`, size `nA`) and `B` (listed by `b`, size `nB`), the banded matrix
assembled from all observations equals, entrywise, the sum of the banded
matrices assembled from the two restricted column sets. -/
theorem claim_C8 (base_DIF temporal : Mat) (p : Int) (hp : 0 ≤ p)
    (nA nB : Nat) (a b : Nat → Nat)
    (ha : ∀ j, j < nA → a j < base_DIF.cols)
    (hb : ∀ j, j < nB → b j < base_DIF.cols)
    (hainj : ∀ j1, j1 < nA → ∀ j2, j2 < nA → a j1 = a j2 → j1 = j2)
    (hbinj : ∀ j1, j1 < nB → ∀ j2, j2 < nB → b j1 = b j2 → j1 = j2)
    (hdisj : ∀ j1, j1 < nA → ∀ j2, j2 < nB → a j1 ≠ b j2)
    (hcover : ∀ k, k < base_DIF.cols →
      (∃ j, j < nA ∧ a j = k) ∨ (∃ j, j < nB ∧ b j = k)) :
    ∀ r c, optEntry (build_banded base_DIF temporal p) r c
      = optEntry (build_banded (restrictCols base_DIF nA a) (restrictCols temporal nA a) p) r c
        + optEntry (build_banded (restrictCols base_DIF nB b) (restrictCols temporal nB b) p) r c := by
  intro r c
  rw [build_banded_eq base_DIF temporal p hp,
    build_banded_eq (restrictCols base_DIF nA a) (restrictCols temporal nA a) p hp,
    build_banded_eq (restrictCols base_DIF nB b) (restrictCols temporal nB b) p hp]
  simp only [optEntry, restrictCols]
  by_cases hcond : r < ((p + 1) * (base_DIF.rows : Int) + 1).toNat ∧
      ((p + 1) * (base_DIF.rows : Int) + 1).toNat - 1 - r ≤ c ∧
      c < temporal.rows * base_DIF.rows
  · rw [if_pos hcond, if_pos hcond, if_pos hcond]
    unfold bbW
    by_cases hskip : p < (((((((p + 1) * (base_DIF.rows : Int) + 1).toNat - 1 - r) +
        (c - (((p + 1) * (base_DIF.rows : Int) + 1).toNat - 1 - r))) / base_DIF.rows : Nat) : Int)
        - (((c - (((p + 1) * (base_DIF.rows : Int) + 1).toNat - 1 - r)) / base_DIF.rows : Nat) : Int)).natAbs
    · rw [if_pos hskip, if_pos hskip, if_pos hskip]
      norm_num
    · rw [if_neg hskip, if_neg hskip, if_neg hskip]
      exact sum_split_partition base_DIF.cols nA nB a b _ ha hb hainj hbinj hdisj hcover
  · rw [if_neg hcond, if_neg hcond, if_neg hcond]
    norm_num

theorem claim_C8_witness :
    (0 : Int) ≤ 0 ∧
      (∀ j, j < 1 → (fun _ : Nat => 0) j < mat1x2.cols) ∧
      (∀ j, j < 1 → (fun _ : Nat => 1) j < mat1x2.cols) ∧
      (∀ j1, j1 < 1 → ∀ j2, j2 < 1 → (fun _ : Nat => 0) j1 = (fun _ : Nat => 0) j2 → j1 = j2) ∧
      (∀ j1, j1 < 1 → ∀ j2, j2 < 1 → (fun _ : Nat => 1) j1 = (fun _ : Nat => 1) j2 → j1 = j2) ∧
      (∀ j1, j1 < 1 → ∀ j2, j2 < 1 → (fun _ : Nat => 0) j1 ≠ (fun _ : Nat => 1) j2) ∧
      (∀ k, k < mat1x2.cols →
        (∃ j, j < 1 ∧ (fun _ : Nat => 0) j = k) ∨ (∃ j, j < 1 ∧ (fun _ : Nat => 1) j = k)) ∧
      (∀ r c, optEntry (build_banded mat1x2 mat1x2 0) r c
        = optEntry (build_banded (restrictCols mat1x2 1 (fun _ : Nat => 0))
            (restrictCols mat1x2 1 (fun _ : Nat => 0)) 0) r c
          + optEntry (build_banded (restrictCols mat1x2 1 (fun _ : Nat => 1))
              (restrictCols mat1x2 1 (fun _ : Nat => 1)) 0) r c) :=
  ⟨by decide, by decide, by decide, by decide, by decide, by decide, by decide,
    claim_C8 mat1x2 mat1x2 0 (by decide) 1 1 (fun _ => 0) (fun _ => 1)
      (by decide) (by decide) (by decide) (by decide) (by decide) (by decide)⟩

/-- A sum over a CSR slice that enumerates (without repetition) exactly the
indices `k < n` at which both factors `u k` and `v k` are nonzero equals the
sum over all of `[0, n)`, for any summand that vanishes whenever `u` or `v`
does. -/
lemma sum_nonzero_slice (S E n : Nat) (nz : Nat → Nat) (u v g : Nat → ℚ)
    (hg0 : ∀ k, k < n → (u k = 0 ∨ v k = 0) → g k = 0)
    (hinj : ∀ x, x < E → S ≤ x → ∀ y, y < E → S ≤ y → nz x = nz y → x = y)
    (hsub : ∀ x, x < E → S ≤ x → nz x < n ∧ u (nz x) ≠ 0 ∧ v (nz x) ≠ 0)
    (hcov : ∀ k, k < n → u k ≠ 0 → v k ≠ 0 → ∃ x, x < E ∧ S ≤ x ∧ nz x = k) :
    ∑ kt ∈ Finset.Ico S E, g (nz kt) = ∑ k ∈ Finset.range n, g k := by
  classical
  have hfilter : ∑ k ∈ (Finset.range n).filter (fun k => u k ≠ 0 ∧ v k ≠ 0), g k
      = ∑ k ∈ Finset.range n, g k := by
    refine Finset.sum_filter_of_ne fun k hk hgk => ?_
    by_contra hnot
    push_neg at hnot
    have := hg0 k (Finset.mem_range.mp hk)
    rcases Classical.em (u k = 0) with h | h
    · exact hgk (this (Or.inl h))
    · exact hgk (this (Or.inr (hnot h)))
  rw [← hfilter]
  refine Finset.sum_bij (fun x _ => nz x) ?_ ?_ ?_ ?_
  · intro x hx
    rw [Finset.mem_Ico] at hx
    obtain ⟨h1, h2, h3⟩ := hsub x hx.2 hx.1
    exact Finset.mem_filter.mpr ⟨Finset.mem_range.mpr h1, h2, h3⟩
  · intro x hx y hy hxy
    rw [Finset.mem_Ico] at hx hy
    exact hinj x hx.2 hx.1 y hy.2 hy.1 hxy
  · intro k hk
    rw [Finset.mem_filter, Finset.mem_range] at hk
    obtain ⟨x, h1, h2, h3⟩ := hcov k hk.1 hk.2.1 hk.2.2
    exact ⟨x, Finset.mem_Ico.mpr ⟨h2, h1⟩, h3⟩
  · intro x _
    rfl

/-- Claim C2: when the nonzero-index grouping is exact — for every
temporal-block pair `(it_t, jt_t)` the slice
`nonzero_inds[starts[ind] : starts[ind+1]]`, `ind = it_t*n_t + jt_t`,
enumerates without repetition exactly the observation indices at which both
`temporal[it_t, ·]` and `temporal[jt_t, ·]` are nonzero — `build_banded_2`
returns, in exact arithmetic, the same matrix as `build_banded`. -/
theorem claim_C2 (base_DIF temporal : Mat) (p : Int) (nonzero_inds starts : Nat → Nat)
    (hp : 0 ≤ p)
    (hgroup : ∀ it_t, it_t < temporal.rows → ∀ jt_t, jt_t < temporal.rows →
      (∀ x, x < starts (it_t * temporal.rows + jt_t + 1) →
        starts (it_t * temporal.rows + jt_t) ≤ x →
        ∀ y, y < starts (it_t * temporal.rows + jt_t + 1) →
          starts (it_t * temporal.rows + jt_t) ≤ y →
          nonzero_inds x = nonzero_inds y → x = y) ∧
      (∀ x, x < starts (it_t * temporal.rows + jt_t + 1) →
        starts (it_t * temporal.rows + jt_t) ≤ x →
        nonzero_inds x < base_DIF.cols ∧
          temporal.entry it_t (nonzero_inds x) ≠ 0 ∧
          temporal.entry jt_t (nonzero_inds x) ≠ 0) ∧
      (∀ k, k < base_DIF.cols → temporal.entry it_t k ≠ 0 → temporal.entry jt_t k ≠ 0 →
        ∃ x, x < starts (it_t * temporal.rows + jt_t + 1) ∧
          starts (it_t * temporal.rows + jt_t) ≤ x ∧ nonzero_inds x = k)) :
    build_banded_2 base_DIF temporal p nonzero_inds starts
      = build_banded base_DIF temporal p := by
  rw [build_banded_2_eq base_DIF temporal p nonzero_inds starts hp,
    build_banded_eq base_DIF temporal p hp]
  congr 1
  congr 1
  funext r c
  by_cases hcond : r < ((p + 1) * (base_DIF.rows : Int) + 1).toNat ∧
      ((p + 1) * (base_DIF.rows : Int) + 1).toNat - 1 - r ≤ c ∧
      c < temporal.rows * base_DIF.rows
  · rw [if_pos hcond, if_pos hcond]
    unfold bbW bb2W
    rw [show ((p + 1) * (base_DIF.rows : Int) + 1).toNat - 1 - r +
        (c - (((p + 1) * (base_DIF.rows : Int) + 1).toNat - 1 - r)) = c from by omega]
    by_cases hskip : p < ((((c / base_DIF.rows : Nat)) : Int)
        - (((c - (((p + 1) * (base_DIF.rows : Int) + 1).toNat - 1 - r)) / base_DIF.rows : Nat) : Int)).natAbs
    · rw [if_pos hskip, if_pos hskip]
    · rw [if_neg hskip, if_neg hskip]
      have hnc : 0 < base_DIF.rows := by
        rcases Nat.eq_zero_or_pos base_DIF.rows with h | h
        · have hc3 := hcond.2.2
          rw [h, Nat.mul_zero] at hc3
          exact absurd hc3 (Nat.not_lt_zero c)
        · exact h
      have hitt : c / base_DIF.rows < temporal.rows :=
        (Nat.div_lt_iff_lt_mul hnc).mpr hcond.2.2
      have hjtt : (c - (((p + 1) * (base_DIF.rows : Int) + 1).toNat - 1 - r)) / base_DIF.rows
          < temporal.rows :=
        lt_of_le_of_lt (Nat.div_le_div_right (Nat.sub_le c _)) hitt
      obtain ⟨hinj, hsub, hcov⟩ := hgroup (c / base_DIF.rows) hitt
        ((c - (((p + 1) * (base_DIF.rows : Int) + 1).toNat - 1 - r)) / base_DIF.rows) hjtt
      exact sum_nonzero_slice _ _ base_DIF.cols nonzero_inds
        (temporal.entry (c / base_DIF.rows))
        (temporal.entry
          ((c - (((p + 1) * (base_DIF.rows : Int) + 1).toNat - 1 - r)) / base_DIF.rows))
        (fun k => temporal.entry (c / base_DIF.rows) k *
          base_DIF.entry (c % base_DIF.rows) k *
          temporal.entry
            ((c - (((p + 1) * (base_DIF.rows : Int) + 1).toNat - 1 - r)) / base_DIF.rows) k *
          base_DIF.entry
            ((c - (((p + 1) * (base_DIF.rows : Int) + 1).toNat - 1 - r)) % base_DIF.rows) k)
        (fun k _ h => by rcases h with h | h <;> simp [h])
        hinj hsub hcov
  · rw [if_neg hcond, if_neg hcond]

theorem claim_C2_witness :
    (0 : Int) ≤ 0 ∧
      (∀ it_t, it_t < mat1x1.rows → ∀ jt_t, jt_t < mat1x1.rows →
        (∀ x, x < (fun i : Nat => i) (it_t * mat1x1.rows + jt_t + 1) →
          (fun i : Nat => i) (it_t * mat1x1.rows + jt_t) ≤ x →
          ∀ y, y < (fun i : Nat => i) (it_t * mat1x1.rows + jt_t + 1) →
            (fun i : Nat => i) (it_t * mat1x1.rows + jt_t) ≤ y →
            (fun x : Nat => x) x = (fun x : Nat => x) y → x = y) ∧
        (∀ x, x < (fun i : Nat => i) (it_t * mat1x1.rows + jt_t + 1) →
          (fun i : Nat => i) (it_t * mat1x1.rows + jt_t) ≤ x →
          (fun x : Nat => x) x < mat1x1.cols ∧
            mat1x1.entry it_t ((fun x : Nat => x) x) ≠ 0 ∧
            mat1x1.entry jt_t ((fun x : Nat => x) x) ≠ 0) ∧
        (∀ k, k < mat1x1.cols → mat1x1.entry it_t k ≠ 0 → mat1x1.entry jt_t k ≠ 0 →
          ∃ x, x < (fun i : Nat => i) (it_t * mat1x1.rows + jt_t + 1) ∧
            (fun i : Nat => i) (it_t * mat1x1.rows + jt_t) ≤ x ∧ (fun x : Nat => x) x = k)) ∧
      build_banded_2 mat1x1 mat1x1 0 (fun x => x) (fun i => i)
        = build_banded mat1x1 mat1x1 0 := by
  have hg : ∀ it_t, it_t < mat1x1.rows → ∀ jt_t, jt_t < mat1x1.rows →
      (∀ x, x < (fun i : Nat => i) (it_t * mat1x1.rows + jt_t + 1) →
        (fun i : Nat => i) (it_t * mat1x1.rows + jt_t) ≤ x →
        ∀ y, y < (fun i : Nat => i) (it_t * mat1x1.rows + jt_t + 1) →
          (fun i : Nat => i) (it_t * mat1x1.rows + jt_t) ≤ y →
          (fun x : Nat => x) x = (fun x : Nat => x) y → x = y) ∧
      (∀ x, x < (fun i : Nat => i) (it_t * mat1x1.rows + jt_t + 1) →
        (fun i : Nat => i) (it_t * mat1x1.rows + jt_t) ≤ x →
        (fun x : Nat => x) x < mat1x1.cols ∧
          mat1x1.entry it_t ((fun x : Nat => x) x) ≠ 0 ∧
          mat1x1.entry jt_t ((fun x : Nat => x) x) ≠ 0) ∧
      (∀ k, k < mat1x1.cols → mat1x1.entry it_t k ≠ 0 → mat1x1.entry jt_t k ≠ 0 →
        ∃ x, x < (fun i : Nat => i) (it_t * mat1x1.rows + jt_t + 1) ∧
          (fun i : Nat => i) (it_t * mat1x1.rows + jt_t) ≤ x ∧ (fun x : Nat => x) x = k) := by
    intro it_t h1 jt_t h2
    refine ⟨fun x _ _ y _ _ hxy => hxy, fun x hx hx' => ?_, fun k hk _ _ => ⟨k, ?_, ?_, rfl⟩⟩
    · simp only [mat1x1] at hx hx' h1 h2 ⊢
      refine ⟨by omega, by norm_num, by norm_num⟩
    · simp only [mat1x1] at hk h1 h2 ⊢
      omega
    · simp only [mat1x1] at hk h1 h2 ⊢
      omega
  exact ⟨le_refl 0, hg,
    claim_C2 mat1x1 mat1x1 0 (fun x => x) (fun i => i) (le_refl 0) hg⟩

/-- The matrix returned by `build_banded` in closed form (see
`build_banded_eq`). -/
def bbMat (base_DIF temporal : Mat) (p : Int) : Mat :=
  { rows := ((p + 1) * (base_DIF.rows : Int) + 1).toNat,
    cols := temporal.rows * base_DIF.rows,
    entry := fun r c =>
      if r < ((p + 1) * (base_DIF.rows : Int) + 1).toNat ∧
          ((p + 1) * (base_DIF.rows : Int) + 1).toNat - 1 - r ≤ c ∧
          c < temporal.rows * base_DIF.rows
      then bbW base_DIF temporal p
        (((p + 1) * (base_DIF.rows : Int) + 1).toNat - 1 - r)
        (c - (((p + 1) * (base_DIF.rows : Int) + 1).toNat - 1 - r))
      else 0 }

lemma build_banded_eq_bbMat (base_DIF temporal : Mat) (p : Int) (hp : 0 ≤ p) :
    build_banded base_DIF temporal p = some (bbMat base_DIF temporal p) := by
  rw [build_banded_eq base_DIF temporal p hp]
  rfl

/-- The full matrix reconstructed from any banded artifact is symmetric by
construction of the mirroring convention. -/
lemma reconstructFull_symm (m : Mat) (r c : Nat) :
    reconstructFull m r c = reconstructFull m c r := by
  unfold reconstructFull
  rcases Nat.lt_or_ge r c with h | h
  · rw [if_pos (le_of_lt h), if_neg (not_le.mpr h)]
  · rcases Nat.eq_or_lt_of_le h with h' | h'
    · rw [h']
    · rw [if_neg (not_le.mpr h'), if_pos (le_of_lt h')]

/-- A full-matrix offset at or beyond the bandwidth implies a temporal-block
distance exceeding `p`. -/
lemma dist_of_offset (p : Int) (hp : 0 ≤ p) (nc r c : Nat) (hnc : 0 < nc) (hrc : r ≤ c)
    (hB : ((p + 1) * (nc : Int) + 1).toNat ≤ c - r) :
    p < ((((c / nc : Nat) : Int) - ((r / nc : Nat) : Int)).natAbs : Int) := by
  have hpn : ((p.toNat : Nat) : Int) = p := Int.toNat_of_nonneg hp
  have hBeq : ((p + 1) * (nc : Int) + 1).toNat = (p.toNat + 1) * nc + 1 := by
    rw [show (p + 1) * (nc : Int) + 1 = (((p.toNat + 1) * nc + 1 : Nat) : Int) from by
      push_cast
      rw [hpn]]
    exact Int.toNat_natCast _
  rw [hBeq] at hB
  have h2 : r + nc * (p.toNat + 1) ≤ c := by
    have hK : (p.toNat + 1) * nc = nc * (p.toNat + 1) := Nat.mul_comm _ _
    rw [hK] at hB
    omega
  have h3 : r / nc + (p.toNat + 1) ≤ c / nc := by
    have hd := Nat.div_le_div_right (c := nc) h2
    rw [Nat.add_mul_div_left _ _ hnc] at hd
    exact hd
  omega

/-- The quadratic form of a Gram-type double sum is a sum of squares, hence
nonnegative. -/
lemma gram_quad_nonneg (N n : Nat) (gg : Nat → Nat → ℚ) (v : Nat → ℚ) :
    0 ≤ ∑ r ∈ Finset.range N, ∑ c ∈ Finset.range N,
      v r * (∑ kt ∈ Finset.range n, gg r kt * gg c kt) * v c := by
  have h : ∑ r ∈ Finset.range N, ∑ c ∈ Finset.range N,
      v r * (∑ kt ∈ Finset.range n, gg r kt * gg c kt) * v c
      = ∑ kt ∈ Finset.range n, (∑ r ∈ Finset.range N, v r * gg r kt)
        * (∑ c ∈ Finset.range N, v c * gg c kt) := by
    calc ∑ r ∈ Finset.range N, ∑ c ∈ Finset.range N,
        v r * (∑ kt ∈ Finset.range n, gg r kt * gg c kt) * v c
        = ∑ r ∈ Finset.range N, ∑ c ∈ Finset.range N, ∑ kt ∈ Finset.range n,
            (v r * gg r kt) * (v c * gg c kt) := by
          refine Finset.sum_congr rfl fun r _ => Finset.sum_congr rfl fun c _ => ?_
          rw [Finset.mul_sum, Finset.sum_mul]
          exact Finset.sum_congr rfl fun kt _ => by ring
      _ = ∑ r ∈ Finset.range N, ∑ kt ∈ Finset.range n, ∑ c ∈ Finset.range N,
            (v r * gg r kt) * (v c * gg c kt) :=
          Finset.sum_congr rfl fun r _ => Finset.sum_comm
      _ = ∑ kt ∈ Finset.range n, ∑ r ∈ Finset.range N, ∑ c ∈ Finset.range N,
            (v r * gg r kt) * (v c * gg c kt) := Finset.sum_comm
      _ = ∑ kt ∈ Finset.range n, (∑ r ∈ Finset.range N, v r * gg r kt)
            * (∑ c ∈ Finset.range N, v c * gg c kt) :=
          Finset.sum_congr rfl fun kt _ => (Finset.sum_mul_sum _ _ _ _).symm
  rw [h]
  exact Finset.sum_nonneg fun kt _ => mul_self_nonneg _

/-- When the temporal basis respects the band (blocks further apart than `p`
have identically-zero products), the reconstructed full matrix in the upper
triangle is the Gram matrix of the combined basis functions. -/
lemma reconstruct_upper (base_DIF temporal : Mat) (p : Int) (hp : 0 ≤ p)
    (hresp : ∀ tb1, tb1 < temporal.rows → ∀ tb2, tb2 < temporal.rows →
      p < (((tb1 : Int) - (tb2 : Int)).natAbs : Int) →
      ∀ kt, kt < base_DIF.cols → temporal.entry tb1 kt * temporal.entry tb2 kt = 0)
    (r c : Nat) (hrc : r ≤ c) (hc : c < temporal.rows * base_DIF.rows) :
    reconstructFull (bbMat base_DIF temporal p) r c
      = ∑ kt ∈ Finset.range base_DIF.cols,
          (temporal.entry (r / base_DIF.rows) kt * base_DIF.entry (r % base_DIF.rows) kt) *
            (temporal.entry (c / base_DIF.rows) kt * base_DIF.entry (c % base_DIF.rows) kt) := by
  have hnc : 0 < base_DIF.rows := by
    rcases Nat.eq_zero_or_pos base_DIF.rows with h | h
    · rw [h, Nat.mul_zero] at hc
      exact absurd hc (Nat.not_lt_zero c)
    · exact h
  have hct : c / base_DIF.rows < temporal.rows := (Nat.div_lt_iff_lt_mul hnc).mpr hc
  have hrt : r / base_DIF.rows < temporal.rows :=
    (Nat.div_lt_iff_lt_mul hnc).mpr (lt_of_le_of_lt hrc hc)
  have hB1 : 1 ≤ ((p + 1) * (base_DIF.rows : Int) + 1).toNat := by
    have : (0 : Int) ≤ (p + 1) * (base_DIF.rows : Int) :=
      mul_nonneg (by omega) (Int.ofNat_nonneg _)
    omega
  have hzero : p < ((((c / base_DIF.rows : Nat) : Int)
        - ((r / base_DIF.rows : Nat) : Int)).natAbs : Int) →
      (∑ kt ∈ Finset.range base_DIF.cols,
        (temporal.entry (r / base_DIF.rows) kt * base_DIF.entry (r % base_DIF.rows) kt) *
          (temporal.entry (c / base_DIF.rows) kt * base_DIF.entry (c % base_DIF.rows) kt)) = 0 := by
    intro hskip
    refine Finset.sum_eq_zero fun kt hkt => ?_
    have h0 := hresp (c / base_DIF.rows) hct (r / base_DIF.rows) hrt hskip kt
      (Finset.mem_range.mp hkt)
    calc (temporal.entry (r / base_DIF.rows) kt * base_DIF.entry (r % base_DIF.rows) kt) *
          (temporal.entry (c / base_DIF.rows) kt * base_DIF.entry (c % base_DIF.rows) kt)
        = (temporal.entry (c / base_DIF.rows) kt * temporal.entry (r / base_DIF.rows) kt) *
            (base_DIF.entry (r % base_DIF.rows) kt * base_DIF.entry (c % base_DIF.rows) kt) := by
          ring
      _ = 0 := by rw [h0, zero_mul]
  unfold reconstructFull bbMat
  dsimp only
  rw [if_pos hrc]
  by_cases hcb : c - r < ((p + 1) * (base_DIF.rows : Int) + 1).toNat
  · rw [if_pos hcb, if_pos ⟨by omega, by omega, hc⟩,
      show ((p + 1) * (base_DIF.rows : Int) + 1).toNat - 1 -
          (((p + 1) * (base_DIF.rows : Int) + 1).toNat - 1 - (c - r)) = c - r from by omega,
      show c - (c - r) = r from by omega]
    unfold bbW
    rw [show c - r + r = c from by omega]
    by_cases hskip : p < ((((c / base_DIF.rows : Nat) : Int)
        - ((r / base_DIF.rows : Nat) : Int)).natAbs : Int)
    · rw [if_pos hskip, hzero hskip]
    · rw [if_neg hskip]
      exact Finset.sum_congr rfl fun kt _ => by ring
  · rw [if_neg hcb, hzero (dist_of_offset p hp base_DIF.rows r c hnc hrc (by omega))]

set_option maxHeartbeats 1600000 in
/-- Claim C9 counterexample: with `n_coeffs = 1`, `n_t = 3`, one observation,
all basis values 1 and `p = 1`, the full matrix reconstructed from the band is
not positive semi-definite: the quadratic form at `v = (1, -1, 1)` equals
`-1`, because the band truncates the (0,2) Gram entry to 0 while the temporal
basis does not respect the band. -/
theorem claim_C9_counterexample :
    ∃ m, build_banded mat1x1 mat3x1 1 = some m ∧
      ∑ r ∈ Finset.range 3, ∑ c ∈ Finset.range 3,
        (if r = 1 then (-1 : ℚ) else 1) * reconstructFull m r c *
          (if c = 1 then (-1 : ℚ) else 1) = -1 := by
  refine ⟨_, build_banded_eq mat1x1 mat3x1 1 (by norm_num), ?_⟩
  norm_num [Finset.sum_range_succ, reconstructFull, bbW, mat1x1, mat3x1,
    show (3 : Int).toNat = 3 from rfl]

/-- Claim C9, amended: the reconstructed full matrix is always symmetric, and
it is positive semi-definite provided the temporal basis respects the band:
whenever two temporal blocks are further apart than `p`, the product of their
basis values vanishes at every observation (then the reconstruction is the
full Gram matrix, a sum of outer products).  Without that hypothesis the
truncation to the band can break positive semi-definiteness
(`claim_C9_counterexample`). -/
theorem claim_C9 (base_DIF temporal : Mat) (p : Int) (hp : 0 ≤ p)
    (hresp : ∀ tb1, tb1 < temporal.rows → ∀ tb2, tb2 < temporal.rows →
      p < (((tb1 : Int) - (tb2 : Int)).natAbs : Int) →
      ∀ kt, kt < base_DIF.cols → temporal.entry tb1 kt * temporal.entry tb2 kt = 0) :
    ∃ m, build_banded base_DIF temporal p = some m ∧
      (∀ r c, reconstructFull m r c = reconstructFull m c r) ∧
      (∀ v : Nat → ℚ, 0 ≤ ∑ r ∈ Finset.range (temporal.rows * base_DIF.rows),
        ∑ c ∈ Finset.range (temporal.rows * base_DIF.rows),
          v r * reconstructFull m r c * v c) := by
  refine ⟨bbMat base_DIF temporal p, build_banded_eq_bbMat base_DIF temporal p hp,
    fun r c => reconstructFull_symm _ r c, ?_⟩
  intro v
  have hGram : ∑ r ∈ Finset.range (temporal.rows * base_DIF.rows),
      ∑ c ∈ Finset.range (temporal.rows * base_DIF.rows),
        v r * reconstructFull (bbMat base_DIF temporal p) r c * v c
      = ∑ r ∈ Finset.range (temporal.rows * base_DIF.rows),
        ∑ c ∈ Finset.range (temporal.rows * base_DIF.rows),
          v r * (∑ kt ∈ Finset.range base_DIF.cols,
            (temporal.entry (r / base_DIF.rows) kt * base_DIF.entry (r % base_DIF.rows) kt) *
              (temporal.entry (c / base_DIF.rows) kt * base_DIF.entry (c % base_DIF.rows) kt))
            * v c := by
    refine Finset.sum_congr rfl fun r hr => Finset.sum_congr rfl fun c hc => ?_
    rw [Finset.mem_range] at hr hc
    rcases le_or_lt r c with h | h
    · rw [reconstruct_upper base_DIF temporal p hp hresp r c h hc]
    · rw [reconstructFull_symm,
        reconstruct_upper base_DIF temporal p hp hresp c r (le_of_lt h) hr]
      congr 1
      congr 1
      exact Finset.sum_congr rfl fun kt _ => mul_comm _ _
  rw [hGram]
  exact gram_quad_nonneg (temporal.rows * base_DIF.rows) base_DIF.cols
    (fun idx kt => temporal.entry (idx / base_DIF.rows) kt *
      base_DIF.entry (idx % base_DIF.rows) kt) v

theorem claim_C9_witness :
    (0 : Int) ≤ 0 ∧
      (∀ tb1, tb1 < mat1x1.rows → ∀ tb2, tb2 < mat1x1.rows →
        (0 : Int) < (((tb1 : Int) - (tb2 : Int)).natAbs : Int) →
        ∀ kt, kt < mat1x1.cols → mat1x1.entry tb1 kt * mat1x1.entry tb2 kt = 0) ∧
      (∃ m, build_banded mat1x1 mat1x1 0 = some m ∧
        (∀ r c, reconstructFull m r c = reconstructFull m c r) ∧
        (∀ v : Nat → ℚ, 0 ≤ ∑ r ∈ Finset.range (mat1x1.rows * mat1x1.rows),
          ∑ c ∈ Finset.range (mat1x1.rows * mat1x1.rows),
            v r * reconstructFull m r c * v c)) := by
  have hresp : ∀ tb1, tb1 < mat1x1.rows → ∀ tb2, tb2 < mat1x1.rows →
      (0 : Int) < (((tb1 : Int) - (tb2 : Int)).natAbs : Int) →
      ∀ kt, kt < mat1x1.cols → mat1x1.entry tb1 kt * mat1x1.entry tb2 kt = 0 := by
    intro tb1 h1 tb2 h2 hd kt hkt
    simp only [mat1x1] at h1 h2
    omega
  exact ⟨le_refl 0, hresp, claim_C9 mat1x1 mat1x1 0 (le_refl 0) hresp⟩

lemma mem_intRange {a b x : Int} : x ∈ intRange a b ↔ a ≤ x ∧ x < b := by
  simp only [intRange, List.mem_map, List.mem_range]
  constructor
  · rintro ⟨i, hi, rfl⟩
    omega
  · intro h
    exact ⟨(x - a).toNat, by omega, by omega⟩

lemma listSum_intRange (a b : Int) (f : Int → ℚ) :
    ((intRange a b).map f).sum = ∑ i ∈ Finset.range (b - a).toNat, f (a + (i : Int)) := by
  rw [intRange, List.map_map]
  exact listMapSum_range _ _

/-- An `Option`-state fold whose every step (on live state) adds a
step-dependent increment grid pointwise. -/
lemma foldl_optAdd {α : Type} (L : List α) (step : Option Grid → α → Option Grid)
    (δ : α → Nat → Nat → ℚ)
    (hstep : ∀ f x, x ∈ L → step (some f) x = some (fun r c => f r c + δ x r c))
    (f0 : Grid) :
    L.foldl step (some f0) = some (fun r c => f0 r c + (L.map (fun x => δ x r c)).sum) := by
  induction L generalizing f0 with
  | nil => exact congrArg some (funext fun r => funext fun c => by simp)
  | cons x L ih =>
      rw [List.foldl_cons, hstep f0 x (List.mem_cons_self x L),
        ih (fun f y hy => hstep f y (List.mem_cons_of_mem x hy))]
      exact congrArg some (funext fun r => funext fun c => by simp [add_assoc])

/-- Collapse of the two window loops of `build_banded_3` (deg = 3,
`n_coeffs = 1`) at a fixed output cell `(r, c)`: among the pairs
`p ∈ [nl-3, nl]`, `q ∈ [p, nl]` (both `< n_t`), exactly one — `q = c`,
`p = c + r - 3` — targets the cell, and it exists precisely under the window
conditions on the right. -/
lemma bb3_collapse (n_t : Nat) (nl : Int) (hnl : 3 ≤ nl) (w : Int → Int → ℚ) (r c : Nat) :
    ((intRange (nl - 3) (nl + 1)).map (fun p =>
      if (n_t : Int) ≤ p then 0
      else ((intRange p (nl + 1)).map (fun q =>
        if (q : Int) < (n_t : Int) ∧ r = (3 + p - q).toNat ∧ c = q.toNat
        then w p q else 0)).sum)).sum
    = if r ≤ 3 ∧ c < n_t ∧ (c : Int) ≤ nl ∧ nl ≤ (c : Int) + (r : Int)
      then w ((c : Int) + (r : Int) - 3) (c : Int) else 0 := by
  rw [listSum_intRange, show (nl + 1 - (nl - 3)).toNat = 4 from by omega]
  have hinner : ∀ i ∈ Finset.range 4,
      (if (n_t : Int) ≤ nl - 3 + (i : Int) then 0
       else ((intRange (nl - 3 + (i : Int)) (nl + 1)).map (fun q =>
         if (q : Int) < (n_t : Int) ∧ r = (3 + (nl - 3 + (i : Int)) - q).toNat ∧ c = q.toNat
         then w (nl - 3 + (i : Int)) q else 0)).sum)
      = ∑ j ∈ Finset.range (4 - i),
          (if nl - 3 + (i : Int) < (n_t : Int) ∧ nl - 3 + (i : Int) + (j : Int) < (n_t : Int) ∧
              r = ((3 : Int) - (j : Int)).toNat ∧ c = (nl - 3 + (i : Int) + (j : Int)).toNat
           then w (nl - 3 + (i : Int)) (nl - 3 + (i : Int) + (j : Int)) else 0) := by
    intro i hi
    by_cases hpn : (n_t : Int) ≤ nl - 3 + (i : Int)
    · rw [if_pos hpn]
      symm
      exact Finset.sum_eq_zero fun j _ => if_neg (by rintro ⟨h1, _⟩; omega)
    · rw [if_neg hpn, listSum_intRange,
        show (nl + 1 - (nl - 3 + (i : Int))).toNat = 4 - i from by
          simp only [Finset.mem_range] at hi
          omega]
      refine Finset.sum_congr rfl fun j _ => if_congr ?_ rfl rfl
      constructor
      · rintro ⟨h1, h2, h3⟩
        exact ⟨by omega, h1, by omega, h3⟩
      · rintro ⟨h0, h1, h2, h3⟩
        exact ⟨h1, by omega, h3⟩
  rw [Finset.sum_congr rfl hinner]
  by_cases hcond : r ≤ 3 ∧ c < n_t ∧ (c : Int) ≤ nl ∧ nl ≤ (c : Int) + (r : Int)
  · rw [if_pos hcond]
    obtain ⟨hr3, hcn, hcnl, hnlcr⟩ := hcond
    rw [Finset.sum_eq_single_of_mem (((c : Int) + (r : Int) - nl).toNat)
      (Finset.mem_range.mpr (by omega)) ?hout]
    case hout =>
      intro i hi hne
      simp only [Finset.mem_range] at hi
      exact Finset.sum_eq_zero fun j hj => if_neg (by
        simp only [Finset.mem_range] at hj
        rintro ⟨h1, h2, h3, h4⟩
        omega)
    rw [Finset.sum_eq_single_of_mem (3 - r)
      (Finset.mem_range.mpr (by omega)) ?hin]
    case hin =>
      intro j hj hne
      simp only [Finset.mem_range] at hj
      exact if_neg (by rintro ⟨h1, h2, h3, h4⟩; omega)
    rw [if_pos ⟨by omega, by omega, by omega, by omega⟩,
      show nl - 3 + ((((c : Int) + (r : Int) - nl).toNat : Nat) : Int)
        = (c : Int) + (r : Int) - 3 from by omega]
    rw [show (c : Int) + (r : Int) - 3 + (((3 - r : Nat) : Nat) : Int) = (c : Int) from by omega]
  · rw [if_neg hcond]
    refine Finset.sum_eq_zero fun i hi => Finset.sum_eq_zero fun j hj => if_neg ?_
    simp only [Finset.mem_range] at hi hj
    rintro ⟨h1, h2, h3, h4⟩
    exact hcond (by refine ⟨by omega, by omega, by omega, by omega⟩)

lemma bb3Cell_some (base_DIF temporal : Mat) (bandw it : Nat) (p q : Int) (i j : Nat)
    (f : Grid)
    (h : 0 ≤ p ∧ 0 ≤ q ∧
      0 ≤ (base_DIF.rows : Int) * (4 + p - q) + (j : Int) - (i : Int) - 1 ∧
      (base_DIF.rows : Int) * (4 + p - q) + (j : Int) - (i : Int) - 1 < (bandw : Int) ∧
      i + q.toNat * base_DIF.rows < temporal.rows * base_DIF.rows) :
    bb3Cell base_DIF temporal bandw it p q i j (some f)
      = some (updCell f
          ((base_DIF.rows : Int) * (4 + p - q) + (j : Int) - (i : Int) - 1).toNat
          (i + q.toNat * base_DIF.rows)
          (temporal.entry p.toNat it * temporal.entry q.toNat it *
            base_DIF.entry i it * base_DIF.entry j it)) := by
  simp only [bb3Cell]
  rw [if_pos h]

/-- Closed form of `build_banded_3` for `deg = 3` and `n_coeffs = 1`, under
in-range left-knot indices (`nlefts ≥ 3`, so the window never goes negative):
the cell `(r, c)` accumulates, over the observations whose window contains
both `c` and `c + r - 3`, the product of the two temporal values and the two
(single) spatial values. -/
lemma bb3_closed (nlefts : Nat → Int) (base_DIF temporal : Mat)
    (hnc : base_DIF.rows = 1)
    (hnl : ∀ k, k < base_DIF.cols → 3 ≤ nlefts k) :
    build_banded_3 nlefts base_DIF temporal 3
      = some { rows := ((3 + 1) * (base_DIF.rows : Int)).toNat,
               cols := temporal.rows * base_DIF.rows,
               entry := fun r c => ∑ it ∈ Finset.range base_DIF.cols,
                 (if r ≤ 3 ∧ c < temporal.rows ∧ (c : Int) ≤ nlefts it ∧
                     nlefts it ≤ (c : Int) + (r : Int)
                  then temporal.entry ((c : Int) + (r : Int) - 3).toNat it *
                    temporal.entry c it * base_DIF.entry 0 it * base_DIF.entry 0 it
                  else 0) } := by
  have hb : ¬ ((3 + 1) * (base_DIF.rows : Int) < 0) := by
    have : (0 : Int) ≤ (3 + 1) * (base_DIF.rows : Int) :=
      mul_nonneg (by norm_num) (Int.ofNat_nonneg _)
    omega
  unfold build_banded_3
  rw [if_neg hb]
  have hfold : (List.range base_DIF.cols).foldl (fun st it =>
      (intRange (nlefts it - 3) (nlefts it + 1)).foldl (fun st p =>
        if (temporal.rows : Int) ≤ p then st
        else
          (intRange p (nlefts it + 1)).foldl (fun st q =>
            if (temporal.rows : Int) ≤ q then st
            else
              (List.range base_DIF.rows).foldl (fun st j =>
                (List.range base_DIF.rows).foldl (fun st i =>
                  bb3Cell base_DIF temporal ((3 + 1) * (base_DIF.rows : Int)).toNat
                    it p q i j st) st) st) st) st)
      (some (fun _ _ => 0))
      = some (fun (r c : Nat) => ∑ it ∈ Finset.range base_DIF.cols,
          (if r ≤ 3 ∧ c < temporal.rows ∧ (c : Int) ≤ nlefts it ∧
              nlefts it ≤ (c : Int) + (r : Int)
           then temporal.entry ((c : Int) + (r : Int) - 3).toNat it *
             temporal.entry c it * base_DIF.entry 0 it * base_DIF.entry 0 it
           else 0)) := by
    rw [foldl_optAdd (List.range base_DIF.cols) _
      (fun it r c => ((intRange (nlefts it - 3) (nlefts it + 1)).map (fun p =>
        if (temporal.rows : Int) ≤ p then 0
        else ((intRange p (nlefts it + 1)).map (fun q =>
          if (q : Int) < (temporal.rows : Int) ∧ r = (3 + p - q).toNat ∧ c = q.toNat
          then temporal.entry p.toNat it * temporal.entry q.toNat it *
            base_DIF.entry 0 it * base_DIF.entry 0 it
          else 0)).sum)).sum)
      ?hstepTop (fun _ _ => 0)]
    case hstepTop =>
      intro f it hitmem
      have hit : it < base_DIF.cols := List.mem_range.mp hitmem
      have h3nl : 3 ≤ nlefts it := hnl it hit
      rw [foldl_optAdd (intRange (nlefts it - 3) (nlefts it + 1)) _
        (fun p r c =>
          if (temporal.rows : Int) ≤ p then 0
          else ((intRange p (nlefts it + 1)).map (fun q =>
            if (q : Int) < (temporal.rows : Int) ∧ r = (3 + p - q).toNat ∧ c = q.toNat
            then temporal.entry p.toNat it * temporal.entry q.toNat it *
              base_DIF.entry 0 it * base_DIF.entry 0 it
            else 0)).sum)
        ?hstepP f]
      case hstepP =>
        intro f' p hpmem
        rw [mem_intRange] at hpmem
        by_cases hpn : (temporal.rows : Int) ≤ p
        · rw [if_pos hpn]
          exact congrArg some (funext fun r => funext fun c => by simp [hpn])
        · rw [if_neg hpn]
          rw [foldl_optAdd (intRange p (nlefts it + 1)) _
            (fun q r c =>
              if (q : Int) < (temporal.rows : Int) ∧ r = (3 + p - q).toNat ∧ c = q.toNat
              then temporal.entry p.toNat it * temporal.entry q.toNat it *
                base_DIF.entry 0 it * base_DIF.entry 0 it
              else 0)
            ?hstepQ f']
          case hstepQ =>
            intro f2 q hqmem
            rw [mem_intRange] at hqmem
            by_cases hqn : (temporal.rows : Int) ≤ q
            · rw [if_pos hqn]
              exact congrArg some (funext fun r => funext fun c => by
                simp [not_lt.mpr hqn])
            · rw [if_neg hqn, hnc,
                show List.range 1 = [0] from rfl]
              simp only [List.foldl_cons, List.foldl_nil]
              rw [bb3Cell_some base_DIF temporal ((3 + 1) * ((1 : Nat) : Int)).toNat
                it p q 0 0 f2
                ⟨by omega, by omega, by rw [hnc]; omega,
                  by rw [hnc]; omega, by rw [hnc]; omega⟩]
              exact congrArg some (funext fun r => funext fun c => by
                rw [updCell_apply,
                  show ((base_DIF.rows : Int) * (4 + p - q) + ((0 : Nat) : Int)
                      - ((0 : Nat) : Int) - 1) = 3 + p - q from by rw [hnc]; push_cast; ring,
                  show 0 + q.toNat * base_DIF.rows = q.toNat from by rw [hnc]; omega]
                refine congrArg (fun z => f2 r c + z) ?_
                refine if_congr ?_ rfl rfl
                constructor
                · rintro ⟨h1, h2⟩
                  exact ⟨not_le.mp hqn, h1, h2⟩
                · rintro ⟨_, h1, h2⟩
                  exact ⟨h1, h2⟩)
          exact congrArg some (funext fun r => funext fun c => by
            dsimp only
            rw [if_neg hpn])
    exact congrArg some (funext fun r => funext fun c => by
      rw [zero_add, listMapSum_range]
      refine Finset.sum_congr rfl fun it hitmem => ?_
      rw [bb3_collapse temporal.rows (nlefts it) (hnl it (Finset.mem_range.mp hitmem))
        (fun p q => temporal.entry p.toNat it * temporal.entry q.toNat it *
          base_DIF.entry 0 it * base_DIF.entry 0 it) r c]
      refine if_congr Iff.rfl ?_ rfl
      rw [Int.toNat_natCast])
  rw [hfold]
  rfl

/-- Claim C3, amended: for `deg = 3` (the degree baked into the literal 4 of
the element-local offset formula, `4 = deg + 1`) and `n_coeffs = 1`, with
in-range left-knot indices (`nlefts[k] ≥ deg`) and a temporal basis supported
on the declared windows, `build_banded_3` returns a matrix whose re-mapping to
the block-offset convention (prepending the always-zero band row) is exactly
the matrix of `build_banded` with `p = 3`. -/
theorem claim_C3 (nlefts : Nat → Int) (base_DIF temporal : Mat)
    (hnc : base_DIF.rows = 1)
    (hnl : ∀ k, k < base_DIF.cols → 3 ≤ nlefts k)
    (hcons : ∀ k, k < base_DIF.cols → ∀ t, t < temporal.rows →
      ((t : Int) < nlefts k - 3 ∨ nlefts k < (t : Int)) → temporal.entry t k = 0) :
    ∃ m3, build_banded_3 nlefts base_DIF temporal 3 = some m3 ∧
      build_banded base_DIF temporal 3 = some (remap3to1 m3) := by
  refine ⟨_, bb3_closed nlefts base_DIF temporal hnc hnl, ?_⟩
  rw [build_banded_eq base_DIF temporal 3 (by norm_num)]
  simp only [remap3to1, Option.some.injEq, Mat.mk.injEq]
  refine ⟨by rw [hnc]; rfl, by trivial, ?_⟩
  funext r c
  rw [hnc, Nat.mul_one, show (((3 : Int) + 1) * ((1 : Nat) : Int) + 1).toNat = 5 from rfl]
  by_cases hr0 : r = 0
  · rw [if_pos hr0]
    subst hr0
    by_cases hcond : 0 < 5 ∧ 5 - 1 - 0 ≤ c ∧ c < temporal.rows
    · rw [if_pos hcond]
      unfold bbW
      rw [hnc]
      simp only [Nat.div_one, Nat.mod_one]
      rw [if_pos (by omega)]
    · rw [if_neg hcond]
  · rw [if_neg hr0]
    by_cases hcond : r < 5 ∧ 5 - 1 - r ≤ c ∧ c < temporal.rows
    · rw [if_pos hcond]
      unfold bbW
      rw [hnc]
      simp only [Nat.div_one, Nat.mod_one]
      rw [if_neg (by omega)]
      refine Finset.sum_congr rfl fun kt hkt => ?_
      have hkt' : kt < base_DIF.cols := Finset.mem_range.mp hkt
      have h3nl := hnl kt hkt'
      rw [show 5 - 1 - r + (c - (5 - 1 - r)) = c from by omega]
      by_cases hwin : (c : Int) ≤ nlefts kt ∧ nlefts kt ≤ (c : Int) + ((r - 1 : Nat) : Int)
      · rw [if_pos ⟨by omega, hcond.2.2, hwin.1, hwin.2⟩,
          show ((c : Int) + ((r - 1 : Nat) : Int) - 3).toNat = c - (5 - 1 - r) from by omega]
        ring
      · rw [if_neg (by rintro ⟨_, _, h3, h4⟩; exact hwin ⟨h3, h4⟩)]
        rcases not_and_or.mp hwin with h | h
        · rw [hcons kt hkt' c hcond.2.2 (Or.inr (by omega))]
          ring
        · rw [hcons kt hkt' (c - (5 - 1 - r)) (by omega) (Or.inl (by omega))]
          ring
    · rw [if_neg hcond]
      symm
      refine Finset.sum_eq_zero fun it hitmem => if_neg ?_
      have h3nl := hnl it (Finset.mem_range.mp hitmem)
      rintro ⟨h1, h2, h3, h4⟩
      exact hcond ⟨by omega, by omega, h2⟩

/-- Claim C3 counterexample: the equivalence does not hold for arbitrary
`deg`.  With `deg = 4` (n_coeffs = 1, n_t = 1, one observation, all values 1,
`nlefts = 4`) the element-local offset formula places the only contribution at
band row `3` instead of `4`, so the re-mapped matrix disagrees with
`build_banded` at the main diagonal: entry `(5, 0)` is `0` on one side and `1`
on the other.  Moreover even for `deg = 3` the formula leaves the band for
`n_coeffs = 2`: the `j - i` term indexes row `bandwidth` (out of bounds,
undefined behaviour, modelled as `none`). -/
theorem claim_C3_counterexample :
    (∃ m3 m1, build_banded_3 (fun _ => 4) mat1x1 mat1x1 4 = some m3 ∧
      build_banded mat1x1 mat1x1 4 = some m1 ∧
      (remap3to1 m3).entry 5 0 = 0 ∧ m1.entry 5 0 = 1 ∧ remap3to1 m3 ≠ m1) ∧
    build_banded_3 (fun _ => 3) mat2x1 mat1x1 3 = none := by
  constructor
  · refine ⟨Mat.mk 5 1 (updCell (fun _ _ => 0) 3 0
        (mat1x1.entry 0 0 * mat1x1.entry 0 0 * mat1x1.entry 0 0 * mat1x1.entry 0 0)),
      _, rfl, build_banded_eq mat1x1 mat1x1 4 (by norm_num), ?_, ?_, ?_⟩
    · norm_num [remap3to1, updCell]
    · norm_num [bbW, mat1x1, Finset.sum_range_succ,
        show (((4 : Int) + 1) * ((1 : Nat) : Int) + 1).toNat = 6 from rfl]
    · intro h
      have h50 := congrArg (fun mm => Mat.entry mm 5 0) h
      norm_num [remap3to1, updCell, bbW, mat1x1, Finset.sum_range_succ,
        show (((4 : Int) + 1) * ((1 : Nat) : Int) + 1).toNat = 6 from rfl] at h50
  · rfl

theorem claim_C3_witness :
    mat1x1.rows = 1 ∧
      (∀ k, k < mat1x1.cols → 3 ≤ (fun _ : Nat => (3 : Int)) k) ∧
      (∀ k, k < mat1x1.cols → ∀ t, t < mat1x1.rows →
        ((t : Int) < (fun _ : Nat => (3 : Int)) k - 3 ∨ (fun _ : Nat => (3 : Int)) k < (t : Int)) →
        mat1x1.entry t k = 0) ∧
      (∃ m3, build_banded_3 (fun _ => 3) mat1x1 mat1x1 3 = some m3 ∧
        build_banded mat1x1 mat1x1 3 = some (remap3to1 m3)) := by
  have hcons : ∀ k, k < mat1x1.cols → ∀ t, t < mat1x1.rows →
      ((t : Int) < (fun _ : Nat => (3 : Int)) k - 3 ∨ (fun _ : Nat => (3 : Int)) k < (t : Int)) →
      mat1x1.entry t k = 0 := by
    intro k hk t ht hcond
    have hcond2 : (t : Int) < 3 - 3 ∨ (3 : Int) < (t : Int) := hcond
    simp only [mat1x1] at ht
    omega
  exact ⟨rfl, by decide, hcons,
    claim_C3 (fun _ => 3) mat1x1 mat1x1 rfl (by decide) hcons⟩

/-- Claim C6: the window of `build_banded_3` is clamped only at the upper end
(`n_t <= p` / `n_t <= q` are skipped); a window extending below zero
(`nlefts[k] - deg < 0`) is *not* clamped, and the loop reads
`temporal[p, k]` at the negative index `p = -1` — an out-of-bounds access
under `wraparound=False`, modelled as `none`.  Concrete failing input:
`nlefts = [2]`, `deg = 3`, `n_t = 3`, `n_coeffs = 1`, one observation. -/
theorem claim_C6_eval :
    build_banded_3 (fun _ => 2) mat1x1 mat3x1 3 = none := rfl
